import Mathlib

/-!
Formal model of the `stockfish` per-tick trading engine
(`src/stockfish/trader.py` and `src/stockfish/utils.py`).

Order books are association lists `price → quantity` (Python dicts),
prices and quantities are integers, and the real-valued computations
(VWAP, moving averages) are carried out in `ℚ`.  Dictionary state kept
by the `Trader` object between ticks is modelled by association lists
with string keys.  Fallible paths of the Python code (uncaught
`TypeError` on an empty book side, `ValueError` on `min`/`max` of an
empty dict) are modelled by `Option`: `none` means the Python code
raises.
-/

namespace Stockfish

/-- An emitted order: `Order(product, price, quantity)` from `datamodel`.
Positive quantity = buy, negative = sell. -/
structure Order where
  product : String
  price : Int
  quantity : Int
  deriving DecidableEq, Repr

/-- One instrument's book snapshot: `order_depth.buy_orders` / `.sell_orders`,
each a Python dict `price → quantity` modelled as an association list. -/
structure OrderDepth where
  buy_orders : List (Int × Int)
  sell_orders : List (Int × Int)
  deriving DecidableEq, Repr

/-- The per-tick input `TradingState`: order depths and positions per product. -/
structure TradingState where
  order_depths : List (String × OrderDepth)
  position : List (String × Int)
  deriving DecidableEq, Repr

/-- Dictionary lookup (`d[k]` / `d.get(k)`): first binding of the key, if any. -/
def dget {κ α : Type} [DecidableEq κ] (m : List (κ × α)) (k : κ) : Option α :=
  match m with
  | [] => none
  | (k', v) :: rest => if k' = k then some v else dget rest k

/-- Dictionary update (`d[k] = v`): replace the first binding or append. -/
def dset {κ α : Type} [DecidableEq κ] (m : List (κ × α)) (k : κ) (v : α) :
    List (κ × α) :=
  match m with
  | [] => [(k, v)]
  | (k', v') :: rest => if k' = k then (k, v) :: rest else (k', v') :: dset rest k v

/-- Mutable dictionary state of the `Trader` object (its `self.*` dicts). -/
structure TraderState where
  ask_price : List (String × Int)
  bid_price : List (String × Int)
  vwap_bid_prices : List (String × List ℚ)
  vwap_ask_prices : List (String × List ℚ)
  large_ask_averages : List (String × List ℚ)
  small_ask_averages : List (String × List ℚ)
  large_bid_averages : List (String × List ℚ)
  small_bid_averages : List (String × List ℚ)
  deriving DecidableEq, Repr

/-- The freshly constructed trader: every dict empty. -/
def initState : TraderState := ⟨[], [], [], [], [], [], [], []⟩

/-- `self.window_size_small = 100`. -/
def window_size_small : Nat := 100

/-- `self.window_size_large = 500`. -/
def window_size_large : Nat := 500

/-- `self.position_limit = {"PEARLS": 20, "BANANAS": 20}`. -/
def position_limit_table : List (String × Int) := [("PEARLS", 20), ("BANANAS", 20)]

/-- Minimum of all keys of a (nonempty) book, seeded with `a`:
models `min(d)` over a Python dict's keys. -/
def foldl_min_key (book : List (Int × Int)) (a : Int) : Int :=
  book.foldl (fun m pq => min m pq.1) a

/-- Maximum of all keys of a (nonempty) book, seeded with `a`:
models `max(d)` over a Python dict's keys. -/
def foldl_max_key (book : List (Int × Int)) (a : Int) : Int :=
  book.foldl (fun m pq => max m pq.1) a

/-- `trader.get_best_bid`: `(max key, stored quantity)`, or absent if empty. -/
def get_best_bid (buy_orders : List (Int × Int)) : Option (Int × Int) :=
  match buy_orders with
  | [] => none
  | (p, _) :: rest =>
    some (foldl_max_key rest p, (dget buy_orders (foldl_max_key rest p)).getD 0)

/-- `trader.get_best_ask`: `(min key, stored quantity)` — note the stored,
still-negative quantity is returned unchanged — or absent if empty. -/
def get_best_ask (sell_orders : List (Int × Int)) : Option (Int × Int) :=
  match sell_orders with
  | [] => none
  | (p, _) :: rest =>
    some (foldl_min_key rest p, (dget sell_orders (foldl_min_key rest p)).getD 0)

namespace Util

/-- `utils.Util.get_best_ask`: `(min key, negated stored quantity)`,
or absent if empty. -/
def get_best_ask (sell_orders : List (Int × Int)) : Option (Int × Int) :=
  match sell_orders with
  | [] => none
  | (p, _) :: rest =>
    some (foldl_min_key rest p, -((dget sell_orders (foldl_min_key rest p)).getD 0))

end Util

/-- `get_vwap(orders)`: `Σ price·quantity / Σ quantity`, and `0` when the
total quantity is `0`. -/
def get_vwap (orders : List (Int × Int)) : ℚ :=
  let weighted_sum : Int := orders.foldl (fun s pq => s + pq.1 * pq.2) 0
  let quantity_sum : Int := orders.foldl (fun s pq => s + pq.2) 0
  if quantity_sum ≠ 0 then (weighted_sum : ℚ) / (quantity_sum : ℚ) else 0

/-- `get_moving_average(prices, window_size)`: mean of the last
`min(len(prices), window_size)` entries. -/
def get_moving_average (prices : List ℚ) (window_size : Nat) : ℚ :=
  let w := min prices.length window_size
  ((prices.drop (prices.length - w)).sum) / (w : ℚ)

/-- `prices[-1]` of a series (total: default `0` on the empty list, which the
source never reaches thanks to its warm-up gates). -/
def series_last (l : List ℚ) : ℚ := l.getD (l.length - 1) 0

/-- `prices[-2]` of a series (total, same caveat as `series_last`). -/
def series_prev (l : List ℚ) : ℚ := l.getD (l.length - 2) 0

/-- `Trader.sell_signal`, as a function of the bid average series it reads:
gate on `len(large_averages) < window_size_small`, then the strict
crossover test on the last two elements of each series. -/
def sell_signal (large_averages small_averages : List ℚ) : Bool :=
  if large_averages.length < window_size_small then false
  else decide (series_last large_averages > series_last small_averages ∧
               series_prev large_averages < series_prev small_averages)

/-- `Trader.buy_signal`, as a function of the ask average series it reads. -/
def buy_signal (large_averages small_averages : List ℚ) : Bool :=
  if large_averages.length < window_size_small then false
  else decide (series_last large_averages < series_last small_averages ∧
               series_prev large_averages > series_prev small_averages)

/-- The three per-product, per-side series dicts that `Trader.order_by_vwap`
reads and writes for one product. -/
structure VwapSeries where
  prices : List ℚ
  larges : List ℚ
  smalls : List ℚ
  deriving DecidableEq, Repr

/-- One call of `Trader.order_by_vwap` on one product's series: append the
book's VWAP to the price series; if the series is still shorter than
`window_size_large`, stop; otherwise append one moving average to each
average series and evaluate `order_condition` on the updated series.
The returned `Bool` is whether `place_order_function` is invoked. -/
def order_by_vwap_step (prices larges smalls : List ℚ) (book : List (Int × Int))
    (order_condition : List ℚ → List ℚ → Bool) : VwapSeries × Bool :=
  let prices2 := prices ++ [get_vwap book]
  if prices2.length < window_size_large then (⟨prices2, larges, smalls⟩, false)
  else
    let larges2 := larges ++ [get_moving_average prices2 window_size_large]
    let smalls2 := smalls ++ [get_moving_average prices2 window_size_small]
    (⟨prices2, larges2, smalls2⟩, order_condition larges2 smalls2)

/-- `place_buy_order`: always appends one order with quantity `abs(quantity)`. -/
def place_buy_order (product : String) (orders : List Order) (price : Int)
    (quantity : Int) : List Order :=
  orders ++ [⟨product, price, |quantity|⟩]

/-- `place_sell_order`: always appends one order with quantity `-abs(quantity)`. -/
def place_sell_order (product : String) (orders : List Order) (price : Int)
    (quantity : Int) : List Order :=
  orders ++ [⟨product, price, -|quantity|⟩]

/-- The body of the `for price in range(start, finish + 1)` loop of
`place_buy_orders_up_to`, with the remaining price range made explicit. -/
def sweep_buy_loop (product : String) (orders : List Order) (quantity : Int)
    (book : List (Int × Int)) : List Int → List Order
  | [] => orders
  | p :: rest =>
    match dget book p with
    | none => sweep_buy_loop product orders quantity book rest
    | some raw =>
      let vol := |raw|
      let q := min quantity vol
      let orders2 := place_buy_order product orders p q
      if q - vol ≤ 0 then orders2 else sweep_buy_loop product orders2 (q - vol) book rest

/-- The integer range `[start, finish]`, i.e. Python `range(start, finish + 1)`. -/
def int_range (start finish : Int) : List Int :=
  (List.range (finish + 1 - start).toNat).map (fun i => start + (i : Int))

/-- `place_buy_orders_up_to(product, orders, quantity, order_depth)`:
`abs` the target, then walk prices from the minimum to the maximum sell key.
`none` models the `ValueError` Python raises on an empty sell book. -/
def place_buy_orders_up_to (product : String) (orders : List Order)
    (quantity : Int) (sell_orders : List (Int × Int)) : Option (List Order) :=
  match sell_orders with
  | [] => none
  | (p, _) :: rest =>
    let start := foldl_min_key rest p
    let finish := foldl_max_key rest p
    some (sweep_buy_loop product orders |quantity| sell_orders (int_range start finish))

/-- The per-product loop body of `Trader.run` (lines 32–71 of `trader.py`)
once `get_best_ask` / `get_best_bid` have produced actual values: volume
clipping, the running ask-floor / bid-ceiling update, and the per-product
strategy branch.  Returns the updated trader dicts and the product's order
list. -/
def process_core (st : TraderState) (product : String) (od : OrderDepth)
    (best_ask raw_ask_vol best_bid raw_bid_vol position : Int) :
    TraderState × List Order :=
  let position_limit := (dget position_limit_table product).getD 0
  let buy_volume := position_limit - position
  let sell_volume := position_limit + position
  let best_ask_volume := min (-raw_ask_vol) buy_volume
  let best_bid_volume := min raw_bid_vol sell_volume
  let ask_floor := min ((dget st.ask_price product).getD best_ask) best_ask
  let bid_ceil := max ((dget st.bid_price product).getD best_bid) best_bid
  let st1 := { st with ask_price := dset st.ask_price product ask_floor,
                       bid_price := dset st.bid_price product bid_ceil }
  if product = "PEARLS" then
    (st1,
     if ask_floor < bid_ceil then
       place_sell_order product (place_buy_order product [] ask_floor buy_volume)
         bid_ceil sell_volume
     else [])
  else if product = "BANANAS" then
    let r1 := order_by_vwap_step ((dget st1.vwap_bid_prices product).getD [])
                ((dget st1.large_bid_averages product).getD [])
                ((dget st1.small_bid_averages product).getD [])
                od.buy_orders sell_signal
    let st2 := { st1 with vwap_bid_prices := dset st1.vwap_bid_prices product r1.1.prices,
                          large_bid_averages := dset st1.large_bid_averages product r1.1.larges,
                          small_bid_averages := dset st1.small_bid_averages product r1.1.smalls }
    let orders1 := if r1.2 then place_sell_order product [] best_bid best_bid_volume else []
    let r2 := order_by_vwap_step ((dget st2.vwap_ask_prices product).getD [])
                ((dget st2.large_ask_averages product).getD [])
                ((dget st2.small_ask_averages product).getD [])
                od.sell_orders buy_signal
    let st3 := { st2 with vwap_ask_prices := dset st2.vwap_ask_prices product r2.1.prices,
                          large_ask_averages := dset st2.large_ask_averages product r2.1.larges,
                          small_ask_averages := dset st2.small_ask_averages product r2.1.smalls }
    let orders2 := if r2.2 then place_buy_order product orders1 best_ask best_ask_volume
                   else orders1
    (st3, orders2)
  else (st1, [])

/-- One product of `Trader.run`.  When either book side is empty,
`get_best_ask` / `get_best_bid` return `None` and line 40/41 of the source
(`min(-best_ask_volume, ...)` / `min(best_bid_volume, ...)`) raises a
`TypeError`; that path is `none`. -/
def process_product (st : TraderState) (product : String) (od : OrderDepth)
    (position : Int) : Option (TraderState × List Order) :=
  match get_best_ask od.sell_orders, get_best_bid od.buy_orders with
  | some (best_ask, raw_ask_vol), some (best_bid, raw_bid_vol) =>
    some (process_core st product od best_ask raw_ask_vol best_bid raw_bid_vol position)
  | _, _ => none

/-- The `for product, order_depth in state.order_depths.items()` loop of
`Trader.run`, building the `result` mapping in iteration order. -/
def runProducts (st : TraderState) (depths : List (String × OrderDepth))
    (pos : String → Int) : Option (TraderState × List (String × List Order)) :=
  match depths with
  | [] => some (st, [])
  | (product, od) :: rest =>
    match process_product st product od (pos product) with
    | none => none
    | some (st2, orders) =>
      match runProducts st2 rest pos with
      | none => none
      | some (stF, results) => some (stF, (product, orders) :: results)

/-- `Trader.run`: process every product of the snapshot, threading the
trader's dict state; `none` models an uncaught Python exception. -/
def run (st : TraderState) (ts : TradingState) :
    Option (TraderState × List (String × List Order)) :=
  runProducts st ts.order_depths (fun product => (dget ts.position product).getD 0)

/-- `Trader.run` over a sequence of ticks, collecting each tick's result. -/
def runSeq (st : TraderState) (tss : List TradingState) :
    Option (TraderState × List (List (String × List Order))) :=
  match tss with
  | [] => some (st, [])
  | ts :: rest =>
    match run st ts with
    | none => none
    | some (st2, res) =>
      match runSeq st2 rest with
      | none => none
      | some (stF, ress) => some (stF, res :: ress)

/-- `Trader.run` over a sequence of ticks, recording for every tick the
trader's dict state right after that tick together with the tick's result
mapping (the same iteration as `runSeq`, keeping the intermediate states). -/
def runSeqStates (st : TraderState) (tss : List TradingState) :
    Option (List (TraderState × List (String × List Order))) :=
  match tss with
  | [] => some []
  | ts :: rest =>
    match run st ts with
    | none => none
    | some (st2, res) =>
      match runSeqStates st2 rest with
      | none => none
      | some items => some ((st2, res) :: items)

/-- The PEARLS trading condition `self.ask_price[product] < self.bid_price[product]`
evaluated on the trader's dict state (false when either key is missing). -/
def pearls_crossed (st : TraderState) : Bool :=
  match dget st.ask_price "PEARLS", dget st.bid_price "PEARLS" with
  | some a, some b => decide (a < b)
  | _, _ => false

/-- `state.position.get(product, 0)` of a tick. -/
def posOf (ts : TradingState) (product : String) : Int :=
  (dget ts.position product).getD 0

/-- `self.position_limit.get(product, 0)`. -/
def limitOf (product : String) : Int :=
  (dget position_limit_table product).getD 0

/-- The book sign conventions of the data model: buy-side quantities are
nonnegative, sell-side quantities are nonpositive. -/
def BookConvention (od : OrderDepth) : Prop :=
  (∀ pq ∈ od.buy_orders, 0 ≤ pq.2) ∧ (∀ pq ∈ od.sell_orders, pq.2 ≤ 0)

instance (od : OrderDepth) : Decidable (BookConvention od) :=
  instDecidableAnd

/-- The headroom invariant for one product's emitted order list at position
`pos`: every buy order fits in the remaining buy headroom, every sell order in
the remaining sell headroom, and any subset of the orders, fully executed,
leaves the position inside `[-limit, +limit]`. -/
def OrdersBound (pr : String) (pos : Int) (orders : List Order) : Prop :=
  (∀ o ∈ orders,
    (0 ≤ o.quantity → o.quantity ≤ limitOf pr - pos) ∧
    (o.quantity < 0 → -o.quantity ≤ limitOf pr + pos)) ∧
  (∀ l : List Order, l.Sublist orders →
    -(limitOf pr) ≤ pos + (l.map Order.quantity).sum ∧
    pos + (l.map Order.quantity).sum ≤ limitOf pr)

/-! ### Helper lemmas about the dictionary and fold primitives -/

theorem dget_mem {κ α : Type} [DecidableEq κ] (m : List (κ × α)) (k : κ) (v : α)
    (h : dget m k = some v) : (k, v) ∈ m := by
  induction m with
  | nil => simp [dget] at h
  | cons hd tl ih =>
    rw [dget] at h
    split at h
    · rename_i heq
      obtain ⟨rfl, rfl⟩ : hd.1 = k ∧ hd.2 = v := by
        cases hd; simp at heq ⊢; exact ⟨heq, by injection h⟩
      exact List.mem_cons_self _ _
    · exact List.mem_cons_of_mem _ (ih h)

theorem dget_of_mem_keys {κ α : Type} [DecidableEq κ] (m : List (κ × α)) (k : κ)
    (h : k ∈ m.map Prod.fst) : ∃ v, dget m k = some v := by
  induction m with
  | nil => simp at h
  | cons hd tl ih =>
    rw [dget]
    by_cases hk : hd.1 = k
    · exact ⟨hd.2, by simp [hk]⟩
    · simp only [List.map_cons, List.mem_cons] at h
      rcases h with h | h
    -- hd.1 = k contradicts hk
      · exact absurd h.symm hk
      · simpa [hk] using ih h

theorem dget_dset_self {κ α : Type} [DecidableEq κ] (m : List (κ × α)) (k : κ) (v : α) :
    dget (dset m k v) k = some v := by
  induction m with
  | nil => simp [dset, dget]
  | cons hd tl ih =>
    rw [dset]
    split
    · simp [dget]
    · rename_i hne
      rw [dget]
      split
      · rename_i h; exact absurd h hne
      · exact ih

theorem dget_dset_ne {κ α : Type} [DecidableEq κ] (m : List (κ × α)) (k k' : κ) (v : α)
    (h : k' ≠ k) : dget (dset m k v) k' = dget m k' := by
  induction m with
  | nil =>
    simp only [dset, dget]
    rw [if_neg (fun hh => h hh.symm)]
  | cons hd tl ih =>
    simp only [dset]
    split
    · rename_i hk
      simp only [dget]
      rw [if_neg (fun hh => h hh.symm), if_neg (fun hh => h (hk.symm.trans hh).symm)]
    · simp only [dget]
      split
      · rfl
      · exact ih

theorem foldl_min_key_cons (hd : Int × Int) (tl : List (Int × Int)) (a : Int) :
    foldl_min_key (hd :: tl) a = foldl_min_key tl (min a hd.1) := rfl

theorem foldl_min_key_le (l : List (Int × Int)) (a : Int) :
    foldl_min_key l a ≤ a ∧ ∀ pq ∈ l, foldl_min_key l a ≤ pq.1 := by
  induction l generalizing a with
  | nil => simp [foldl_min_key]
  | cons hd tl ih =>
    rw [foldl_min_key_cons]
    refine ⟨le_trans (ih (min a hd.1)).1 (min_le_left _ _), ?_⟩
    intro pq hpq
    rcases List.mem_cons.mp hpq with h | h
    · subst h; exact le_trans (ih (min a pq.1)).1 (min_le_right _ _)
    · exact (ih (min a hd.1)).2 pq h

theorem foldl_min_key_mem (l : List (Int × Int)) (a : Int) :
    foldl_min_key l a = a ∨ ∃ pq ∈ l, foldl_min_key l a = pq.1 := by
  induction l generalizing a with
  | nil => left; rfl
  | cons hd tl ih =>
    rw [foldl_min_key_cons]
    rcases ih (min a hd.1) with h | ⟨pq, hpq, h⟩
    · rcases min_choice a hd.1 with hm | hm
      · left; rw [h, hm]
      · right; exact ⟨hd, List.mem_cons_self _ _, by rw [h, hm]⟩
    · right; exact ⟨pq, List.mem_cons_of_mem _ hpq, h⟩

theorem foldl_add_snd (l : List (Int × Int)) (s : Int) :
    l.foldl (fun a pq => a + pq.2) s = s + (l.map Prod.snd).sum := by
  induction l generalizing s with
  | nil => simp
  | cons hd tl ih => simp [ih]; ring

theorem foldl_add_weight (l : List (Int × Int)) (s : Int) :
    l.foldl (fun a pq => a + pq.1 * pq.2) s = s + (l.map (fun pq => pq.1 * pq.2)).sum := by
  induction l generalizing s with
  | nil => simp
  | cons hd tl ih => simp [ih]; ring

/-! ### Claims about the order builders (C2, C3) -/

/-- C2 counterexample: with a requested quantity of `0` (already at most the
headroom), `place_buy_order` still appends an order — a zero-magnitude order —
refuting the claim that no order is appended when the clipped quantity is `≤ 0`. -/
theorem C2_counterexample :
    place_buy_order "PEARLS" [] 10 0 = [⟨"PEARLS", 10, 0⟩] ∧
    place_buy_order "PEARLS" [] 10 0 ≠ [] := by
  decide

/-- C2 amended: the order builders unconditionally append exactly one order;
its magnitude is `|quantity|` — nonnegative for buys, nonpositive for sells —
so a zero requested quantity yields a zero-magnitude order rather than no
order, and a negative requested quantity yields an order of magnitude
`|quantity|`. -/
theorem C2_always_appends (product : String) (orders : List Order)
    (price quantity : Int) :
    ((place_buy_order product orders price quantity).length = orders.length + 1) ∧
    (∀ o ∈ place_buy_order product orders price quantity,
      o ∈ orders ∨ (o.product = product ∧ o.price = price ∧
        o.quantity = |quantity| ∧ 0 ≤ o.quantity)) ∧
    ((place_sell_order product orders price quantity).length = orders.length + 1) ∧
    (∀ o ∈ place_sell_order product orders price quantity,
      o ∈ orders ∨ (o.product = product ∧ o.price = price ∧
        o.quantity = -|quantity| ∧ o.quantity ≤ 0)) ∧
    (quantity = 0 → ∃ o ∈ place_buy_order product orders price quantity,
      o.quantity = 0) := by
  refine ⟨by simp [place_buy_order], ?_, by simp [place_sell_order], ?_, ?_⟩
  · intro o ho
    rcases List.mem_append.mp ho with h | h
    · exact Or.inl h
    · right
      simp only [List.mem_singleton] at h
      subst h
      exact ⟨rfl, rfl, rfl, abs_nonneg _⟩
  · intro o ho
    rcases List.mem_append.mp ho with h | h
    · exact Or.inl h
    · right
      simp only [List.mem_singleton] at h
      subst h
      exact ⟨rfl, rfl, rfl, neg_nonpos.mpr (abs_nonneg _)⟩
  · intro hq
    refine ⟨⟨product, price, |quantity|⟩, ?_, by simp [hq]⟩
    simp [place_buy_order]

/-- C2 amended witness: concrete instantiation at quantity `0`. -/
theorem C2_always_appends_witness :
    ((place_buy_order "PEARLS" [] 10 0).length = 0 + 1) ∧
    (∀ o ∈ place_buy_order "PEARLS" [] 10 0,
      o ∈ ([] : List Order) ∨ (o.product = "PEARLS" ∧ o.price = 10 ∧
        o.quantity = |(0 : Int)| ∧ 0 ≤ o.quantity)) ∧
    ((place_sell_order "PEARLS" [] 10 0).length = 0 + 1) ∧
    (∀ o ∈ place_sell_order "PEARLS" [] 10 0,
      o ∈ ([] : List Order) ∨ (o.product = "PEARLS" ∧ o.price = 10 ∧
        o.quantity = -|(0 : Int)| ∧ o.quantity ≤ 0)) ∧
    ((0 : Int) = 0 → ∃ o ∈ place_buy_order "PEARLS" [] 10 0, o.quantity = 0) := by
  have h := C2_always_appends "PEARLS" [] 10 0
  simpa using h

/-- C3: on the sell book `{10: 5, 11: 5, 12: 5}` with target quantity `8`,
`place_buy_orders_up_to` emits a single order `(10, qty 5)` and stops —
the loop overwrites the remaining target with the clipped fill and then
subtracts the whole level volume, so it always returns after the first
populated price level, never reaching the claimed `(11, qty 3)`. -/
theorem C3_sweep_single_order :
    place_buy_orders_up_to "BANANAS" [] 8 [(10, 5), (11, 5), (12, 5)] =
      some [⟨"BANANAS", 10, 5⟩] := by
  decide

/-! ### Claims about the book analytics (C5, C9) -/

/-- C5: `get_vwap` is `Σ(price·quantity)/Σ(quantity)` whenever the total
quantity is nonzero and exactly `0` when the total quantity is `0`, in
particular on the empty book and on an all-zero-quantity book; it is a total
function, so no division error can occur. -/
theorem C5_vwap (orders : List (Int × Int)) :
    ((orders.map Prod.snd).sum = 0 → get_vwap orders = 0) ∧
    ((orders.map Prod.snd).sum ≠ 0 →
      get_vwap orders = (((orders.map (fun pq => pq.1 * pq.2)).sum : Int) : ℚ) /
        (((orders.map Prod.snd).sum : Int) : ℚ)) ∧
    get_vwap [] = 0 ∧ (∀ p : Int, get_vwap [(p, 0)] = 0) := by
  refine ⟨?_, ?_, by decide, by intro p; simp [get_vwap]⟩
  · intro h
    rw [get_vwap]
    simp only [foldl_add_snd, zero_add, h]
    simp
  · intro h
    rw [get_vwap]
    simp only [foldl_add_snd, foldl_add_weight, zero_add]
    simp [h]

/-- C5 witness: a concrete two-level book with total quantity `4`. -/
theorem C5_vwap_witness :
    (([((10 : Int), (2 : Int)), (20, 2)].map Prod.snd).sum ≠ 0) ∧
    get_vwap [(10, 2), (20, 2)] =
      ((([((10 : Int), (2 : Int)), (20, 2)].map (fun pq => pq.1 * pq.2)).sum : Int) : ℚ) /
        ((([((10 : Int), (2 : Int)), (20, 2)].map Prod.snd).sum : Int) : ℚ) := by
  exact ⟨by decide, (C5_vwap [(10, 2), (20, 2)]).2.1 (by decide)⟩

/-- C9 counterexample: `trader.py`'s `get_best_ask` on the sell book
`{5: -3}` returns the stored quantity `-3`, which is negative — not a
positive magnitude as the claim states. -/
theorem C9_counterexample :
    get_best_ask [(5, -3)] = some (5, -3) ∧ ((-3 : Int) < 0) := by
  decide

/-- C9 amended: on a nonempty sell side stored with the negative sign
convention, `utils.py`'s `Util.get_best_ask` returns the minimum sell price
with its quantity as a positive magnitude, while `trader.py`'s `get_best_ask`
returns the minimum sell price with the stored (negative) quantity unchanged;
on an empty sell side both return an absent value. -/
theorem C9_best_ask (sell_orders : List (Int × Int)) (hne : sell_orders ≠ [])
    (hconv : ∀ pq ∈ sell_orders, pq.2 < 0) :
    (∃ p q, (p, q) ∈ sell_orders ∧ (∀ pq ∈ sell_orders, p ≤ pq.1) ∧
      get_best_ask sell_orders = some (p, q) ∧
      Util.get_best_ask sell_orders = some (p, -q) ∧ q < 0 ∧ 0 < -q) ∧
    get_best_ask ([] : List (Int × Int)) = none ∧
    Util.get_best_ask ([] : List (Int × Int)) = none := by
  refine ⟨?_, rfl, rfl⟩
  match sell_orders, hne with
  | (p0, q0) :: rest, _ =>
    set best := foldl_min_key rest p0 with hbest
    have hmem : best ∈ ((p0, q0) :: rest).map Prod.fst := by
      rcases foldl_min_key_mem rest p0 with h | ⟨pq, hpq, h⟩
      · rw [hbest, h]; simp
      · rw [hbest, h]
        simp only [List.map_cons, List.mem_cons]
        exact Or.inr (List.mem_map_of_mem _ hpq)
    obtain ⟨v, hv⟩ := dget_of_mem_keys _ _ hmem
    have hvmem := dget_mem _ _ _ hv
    have hvneg : v < 0 := hconv (best, v) hvmem
    refine ⟨best, v, hvmem, ?_, ?_, ?_, hvneg, by omega⟩
    · intro pq hpq
      rcases List.mem_cons.mp hpq with h | h
      · subst h; exact (foldl_min_key_le rest p0).1
      · exact (foldl_min_key_le rest p0).2 pq h
    · rw [get_best_ask]
      simp only [← hbest, hv, Option.getD_some]
    · rw [Util.get_best_ask]
      simp only [← hbest, hv, Option.getD_some]

/-- C9 amended witness: a concrete two-level sell book. -/
theorem C9_best_ask_witness :
    (∃ p q, (p, q) ∈ [((5 : Int), (-3 : Int)), (4, -2)] ∧
      (∀ pq ∈ [((5 : Int), (-3 : Int)), (4, -2)], p ≤ pq.1) ∧
      get_best_ask [(5, -3), (4, -2)] = some (p, q) ∧
      Util.get_best_ask [(5, -3), (4, -2)] = some (p, -q) ∧ q < 0 ∧ 0 < -q) ∧
    get_best_ask ([] : List (Int × Int)) = none ∧
    Util.get_best_ask ([] : List (Int × Int)) = none := by
  exact C9_best_ask [(5, -3), (4, -2)] (by decide) (by decide)

/-! ### Claims about the moving-average tracker and crossover signals (C6, C7) -/

/-- C6: one `order_by_vwap` observation appends exactly one VWAP value to the
price series; while the resulting series is still shorter than
`window_size_large = 500` neither average series gains an entry, and on the
observation that brings the length to exactly `500`, exactly one entry is
appended to each average series — each the arithmetic mean of the last
`min(length, window)` price values. -/
theorem C6_warmup_gate (prices larges smalls : List ℚ) (book : List (Int × Int))
    (cond : List ℚ → List ℚ → Bool) :
    (prices.length + 1 < window_size_large →
      order_by_vwap_step prices larges smalls book cond =
        (⟨prices ++ [get_vwap book], larges, smalls⟩, false)) ∧
    (prices.length + 1 = window_size_large →
      (order_by_vwap_step prices larges smalls book cond).1.prices =
        prices ++ [get_vwap book] ∧
      (order_by_vwap_step prices larges smalls book cond).1.larges =
        larges ++ [((prices ++ [get_vwap book]).drop
            ((prices ++ [get_vwap book]).length -
              min (prices ++ [get_vwap book]).length window_size_large)).sum /
          ((min (prices ++ [get_vwap book]).length window_size_large : ℕ) : ℚ)] ∧
      (order_by_vwap_step prices larges smalls book cond).1.smalls =
        smalls ++ [((prices ++ [get_vwap book]).drop
            ((prices ++ [get_vwap book]).length -
              min (prices ++ [get_vwap book]).length window_size_small)).sum /
          ((min (prices ++ [get_vwap book]).length window_size_small : ℕ) : ℚ)]) := by
  constructor
  · intro h
    rw [order_by_vwap_step]
    rw [if_pos (by simpa using h)]
  · intro h
    rw [order_by_vwap_step]
    rw [if_neg (by simp only [List.length_append, List.length_singleton]; omega)]
    exact ⟨rfl, rfl, rfl⟩

/-- C6 witness: below the gate (a 3-element series) nothing is appended to the
average series; at exactly 500 elements one mean is appended to each. -/
theorem C6_warmup_gate_witness :
    (order_by_vwap_step [1, 2, 3] [] [] [] (fun _ _ => true) =
      (⟨[1, 2, 3] ++ [get_vwap []], [], []⟩, false)) ∧
    ((order_by_vwap_step (List.replicate 499 (1 : ℚ)) [] [] [] (fun _ _ => true)).1.larges =
      [] ++ [((List.replicate 499 (1 : ℚ) ++ [get_vwap []]).drop
          ((List.replicate 499 (1 : ℚ) ++ [get_vwap []]).length -
            min (List.replicate 499 (1 : ℚ) ++ [get_vwap []]).length window_size_large)).sum /
        ((min (List.replicate 499 (1 : ℚ) ++ [get_vwap []]).length window_size_large : ℕ) : ℚ)]) := by
  constructor
  · exact (C6_warmup_gate [1, 2, 3] [] [] [] (fun _ _ => true)).1 (by decide)
  · exact ((C6_warmup_gate (List.replicate 499 (1 : ℚ)) [] [] [] (fun _ _ => true)).2
      (by rw [List.length_replicate, window_size_large])).2.1

/-- C7: with fewer than `window_size_small = 100` recorded average pairs both
signals are `false`; past the gate (which forces length ≥ 2), the buy signal
fires iff `currentLong < currentShort` and `previousLong > previousShort`,
the sell signal fires iff `currentLong > currentShort` and
`previousLong < previousShort`, both strictly, so equality of either the
current or the previous averages fires no signal. -/
theorem C7_crossover (larges smalls : List ℚ) (_hpairs : larges.length = smalls.length) :
    (larges.length < window_size_small →
      buy_signal larges smalls = false ∧ sell_signal larges smalls = false) ∧
    (window_size_small ≤ larges.length →
      (buy_signal larges smalls = true ↔
        series_last larges < series_last smalls ∧
        series_prev larges > series_prev smalls) ∧
      (sell_signal larges smalls = true ↔
        series_last larges > series_last smalls ∧
        series_prev larges < series_prev smalls) ∧
      ((series_last larges = series_last smalls ∨
        series_prev larges = series_prev smalls) →
        buy_signal larges smalls = false ∧ sell_signal larges smalls = false)) := by
  constructor
  · intro h
    rw [buy_signal, sell_signal, if_pos h, if_pos h]
    exact ⟨rfl, rfl⟩
  · intro h
    have hn : ¬ larges.length < window_size_small := not_lt.mpr h
    refine ⟨?_, ?_, ?_⟩
    · rw [buy_signal, if_neg hn]
      exact decide_eq_true_iff
    · rw [sell_signal, if_neg hn]
      exact decide_eq_true_iff
    · intro heq
      constructor
      · rw [buy_signal, if_neg hn]
        rcases heq with he | he
        · simp [he, lt_irrefl]
        · simp [he, lt_irrefl]
      · rw [sell_signal, if_neg hn]
        rcases heq with he | he
        · simp [he, lt_irrefl]
        · simp [he, lt_irrefl]

/-- C7 witness: below the gate on 2-element series both signals are off; at
the gate, a strict downward cross of the long average fires exactly the buy
signal. -/
theorem C7_crossover_witness :
    (buy_signal [1, 2] [1, 2] = false ∧ sell_signal [1, 2] [1, 2] = false) ∧
    (buy_signal (List.replicate 98 (1 : ℚ) ++ [3, 1]) (List.replicate 98 (1 : ℚ) ++ [1, 3]) = true ↔
      series_last (List.replicate 98 (1 : ℚ) ++ [3, 1]) <
        series_last (List.replicate 98 (1 : ℚ) ++ [1, 3]) ∧
      series_prev (List.replicate 98 (1 : ℚ) ++ [3, 1]) >
        series_prev (List.replicate 98 (1 : ℚ) ++ [1, 3])) := by
  constructor
  · exact (C7_crossover [1, 2] [1, 2] (by decide)).1 (by decide)
  · exact ((C7_crossover (List.replicate 98 (1 : ℚ) ++ [3, 1])
      (List.replicate 98 (1 : ℚ) ++ [1, 3]) (by simp)).2 (by simp [window_size_small])).1

/-! ### Helper lemmas about `process_core` and the run loop -/

theorem sublist_single_cases {α : Type} (a : α) (l : List α) (h : l.Sublist [a]) :
    l = [] ∨ l = [a] :=
  List.sublist_singleton.mp h

theorem sublist_pair_cases {α : Type} (a b : α) (l : List α) (h : l.Sublist [a, b]) :
    l = [] ∨ l = [a] ∨ l = [b] ∨ l = [a, b] := by
  cases h
  · rename_i h2
    rcases List.sublist_singleton.mp h2 with rfl | rfl
    · exact Or.inl rfl
    · exact Or.inr (Or.inr (Or.inl rfl))
  · rename_i h2
    rcases List.sublist_singleton.mp h2 with rfl | rfl
    · exact Or.inr (Or.inl rfl)
    · exact Or.inr (Or.inr (Or.inr rfl))

theorem ordersBound_of_cases (pr : String) (pos : Int) (orders : List Order)
    (hpos : |pos| ≤ limitOf pr)
    (h : orders = [] ∨
      (∃ x, orders = [x] ∧ 0 ≤ x.quantity ∧ x.quantity ≤ limitOf pr - pos) ∨
      (∃ x, orders = [x] ∧ x.quantity ≤ 0 ∧ -(limitOf pr + pos) ≤ x.quantity) ∨
      (∃ x y, orders = [x, y] ∧ 0 ≤ x.quantity ∧ x.quantity ≤ limitOf pr - pos ∧
        y.quantity ≤ 0 ∧ -(limitOf pr + pos) ≤ y.quantity) ∨
      (∃ x y, orders = [x, y] ∧ x.quantity ≤ 0 ∧ -(limitOf pr + pos) ≤ x.quantity ∧
        0 ≤ y.quantity ∧ y.quantity ≤ limitOf pr - pos)) :
    OrdersBound pr pos orders := by
  have habs := abs_le.mp hpos
  rcases h with rfl | ⟨x, rfl, hx1, hx2⟩ | ⟨x, rfl, hx1, hx2⟩ |
    ⟨x, y, rfl, hx1, hx2, hy1, hy2⟩ | ⟨x, y, rfl, hx1, hx2, hy1, hy2⟩
  · refine ⟨by simp, ?_⟩
    intro l hl
    rw [List.sublist_nil.mp hl]
    simpa using habs
  · refine ⟨?_, ?_⟩
    · intro o ho
      rw [List.mem_singleton] at ho
      subst ho
      exact ⟨fun _ => hx2, fun hneg => by omega⟩
    · intro l hl
      rcases sublist_single_cases _ _ hl with rfl | rfl
      · simpa using habs
      · simp only [List.map_cons, List.map_nil, List.sum_cons, List.sum_nil]
        omega
  · refine ⟨?_, ?_⟩
    · intro o ho
      rw [List.mem_singleton] at ho
      subst ho
      exact ⟨fun hge => by omega, fun _ => by omega⟩
    · intro l hl
      rcases sublist_single_cases _ _ hl with rfl | rfl
      · simpa using habs
      · simp only [List.map_cons, List.map_nil, List.sum_cons, List.sum_nil]
        omega
  · refine ⟨?_, ?_⟩
    · intro o ho
      rcases List.mem_cons.mp ho with rfl | ho
      · exact ⟨fun _ => hx2, fun hneg => by omega⟩
      · rw [List.mem_singleton] at ho
        subst ho
        exact ⟨fun hge => by omega, fun _ => by omega⟩
    · intro l hl
      rcases sublist_pair_cases _ _ _ hl with rfl | rfl | rfl | rfl <;>
        simp only [List.map_cons, List.map_nil, List.sum_cons, List.sum_nil] <;> omega
  · refine ⟨?_, ?_⟩
    · intro o ho
      rcases List.mem_cons.mp ho with rfl | ho
      · exact ⟨fun hge => by omega, fun _ => by omega⟩
      · rw [List.mem_singleton] at ho
        subst ho
        exact ⟨fun _ => hy2, fun hneg => by omega⟩
    · intro l hl
      rcases sublist_pair_cases _ _ _ hl with rfl | rfl | rfl | rfl <;>
        simp only [List.map_cons, List.map_nil, List.sum_cons, List.sum_nil] <;> omega

theorem get_best_ask_raw (sell_orders : List (Int × Int)) (ba rav : Int)
    (h : get_best_ask sell_orders = some (ba, rav)) :
    rav = 0 ∨ (ba, rav) ∈ sell_orders := by
  match sell_orders, h with
  | (p, q) :: rest, h =>
    rw [get_best_ask] at h
    have hinj := Option.some.inj h
    have hba : foldl_min_key rest p = ba := congrArg Prod.fst hinj
    have hrav : (dget ((p, q) :: rest) (foldl_min_key rest p)).getD 0 = rav :=
      congrArg Prod.snd hinj
    cases hv : dget ((p, q) :: rest) (foldl_min_key rest p) with
    | none =>
      rw [hv, Option.getD_none] at hrav
      exact Or.inl hrav.symm
    | some v =>
      rw [hv, Option.getD_some] at hrav
      subst hrav
      subst hba
      exact Or.inr (dget_mem _ _ _ hv)

theorem get_best_bid_raw (buy_orders : List (Int × Int)) (bb rbv : Int)
    (h : get_best_bid buy_orders = some (bb, rbv)) :
    rbv = 0 ∨ (bb, rbv) ∈ buy_orders := by
  match buy_orders, h with
  | (p, q) :: rest, h =>
    rw [get_best_bid] at h
    have hinj := Option.some.inj h
    have hbb : foldl_max_key rest p = bb := congrArg Prod.fst hinj
    have hrbv : (dget ((p, q) :: rest) (foldl_max_key rest p)).getD 0 = rbv :=
      congrArg Prod.snd hinj
    cases hv : dget ((p, q) :: rest) (foldl_max_key rest p) with
    | none =>
      rw [hv, Option.getD_none] at hrbv
      exact Or.inl hrbv.symm
    | some v =>
      rw [hv, Option.getD_some] at hrbv
      subst hrbv
      subst hbb
      exact Or.inr (dget_mem _ _ _ hv)

theorem process_product_eq_some (st : TraderState) (pr : String) (od : OrderDepth)
    (pos : Int) (st2 : TraderState) (orders : List Order)
    (h : process_product st pr od pos = some (st2, orders)) :
    ∃ ba rav bb rbv, get_best_ask od.sell_orders = some (ba, rav) ∧
      get_best_bid od.buy_orders = some (bb, rbv) ∧
      process_core st pr od ba rav bb rbv pos = (st2, orders) := by
  rw [process_product] at h
  cases hga : get_best_ask od.sell_orders with
  | none => rw [hga] at h; simp at h
  | some bav =>
    obtain ⟨ba, rav⟩ := bav
    cases hgb : get_best_bid od.buy_orders with
    | none => rw [hga, hgb] at h; simp at h
    | some bbv =>
      obtain ⟨bb, rbv⟩ := bbv
      rw [hga, hgb] at h
      exact ⟨ba, rav, bb, rbv, rfl, rfl, Option.some.inj h⟩

theorem process_core_state (st : TraderState) (pr : String) (od : OrderDepth)
    (ba rav bb rbv pos : Int) :
    (process_core st pr od ba rav bb rbv pos).1.ask_price =
      dset st.ask_price pr (min ((dget st.ask_price pr).getD ba) ba) ∧
    (process_core st pr od ba rav bb rbv pos).1.bid_price =
      dset st.bid_price pr (max ((dget st.bid_price pr).getD bb) bb) := by
  rw [process_core]
  by_cases h1 : pr = "PEARLS"
  · subst h1; simp
  · by_cases h2 : pr = "BANANAS"
    · subst h2; simp
    · simp [h1, h2]

theorem process_core_orders_pearls (st : TraderState) (od : OrderDepth)
    (ba rav bb rbv pos : Int) :
    (process_core st "PEARLS" od ba rav bb rbv pos).2 =
      (if min ((dget st.ask_price "PEARLS").getD ba) ba <
          max ((dget st.bid_price "PEARLS").getD bb) bb then
        [⟨"PEARLS", min ((dget st.ask_price "PEARLS").getD ba) ba,
            |limitOf "PEARLS" - pos|⟩,
         ⟨"PEARLS", max ((dget st.bid_price "PEARLS").getD bb) bb,
            -|limitOf "PEARLS" + pos|⟩]
      else []) := by
  rw [process_core, limitOf]
  simp [place_buy_order, place_sell_order]

theorem process_core_orders_other (st : TraderState) (pr : String) (od : OrderDepth)
    (ba rav bb rbv pos : Int) (h1 : pr ≠ "PEARLS") (h2 : pr ≠ "BANANAS") :
    (process_core st pr od ba rav bb rbv pos).2 = [] := by
  rw [process_core]
  simp [h1, h2]

theorem process_core_orders_bananas (st : TraderState) (od : OrderDepth)
    (ba rav bb rbv pos : Int) :
    (process_core st "BANANAS" od ba rav bb rbv pos).2 = [] ∨
    (process_core st "BANANAS" od ba rav bb rbv pos).2 =
      [⟨"BANANAS", bb, -|min rbv (limitOf "BANANAS" + pos)|⟩] ∨
    (process_core st "BANANAS" od ba rav bb rbv pos).2 =
      [⟨"BANANAS", ba, |min (-rav) (limitOf "BANANAS" - pos)|⟩] ∨
    (process_core st "BANANAS" od ba rav bb rbv pos).2 =
      [⟨"BANANAS", bb, -|min rbv (limitOf "BANANAS" + pos)|⟩,
       ⟨"BANANAS", ba, |min (-rav) (limitOf "BANANAS" - pos)|⟩] := by
  rw [process_core, limitOf]
  rw [if_neg (by decide : ¬(("BANANAS" : String) = "PEARLS")), if_pos rfl]
  dsimp only
  split_ifs with hc1 hc2 hc3
  · right; right; right
    simp [place_buy_order, place_sell_order]
  · right; right; left
    simp [place_buy_order]
  · right; left
    simp [place_sell_order]
  · left
    rfl

theorem process_core_headroom (st : TraderState) (pr : String) (od : OrderDepth)
    (ba rav bb rbv pos : Int) (hrav : rav ≤ 0) (hrbv : 0 ≤ rbv)
    (hpos : |pos| ≤ limitOf pr) :
    OrdersBound pr pos (process_core st pr od ba rav bb rbv pos).2 := by
  have habs := abs_le.mp hpos
  apply ordersBound_of_cases pr pos _ hpos
  by_cases h1 : pr = "PEARLS"
  · subst h1
    rw [process_core_orders_pearls]
    split_ifs with hcr
    · right; right; right; left
      refine ⟨_, _, rfl, abs_nonneg _, ?_, neg_nonpos.mpr (abs_nonneg _), ?_⟩
      · rw [abs_of_nonneg (by omega : (0 : Int) ≤ limitOf "PEARLS" - pos)]
      · rw [abs_of_nonneg (by omega : (0 : Int) ≤ limitOf "PEARLS" + pos)]
    · exact Or.inl rfl
  · by_cases h2 : pr = "BANANAS"
    · subst h2
      have hsq : (0 : Int) ≤ min rbv (limitOf "BANANAS" + pos) :=
        le_min hrbv (by omega)
      have hbq : (0 : Int) ≤ min (-rav) (limitOf "BANANAS" - pos) :=
        le_min (by omega) (by omega)
      have hsq2 : |min rbv (limitOf "BANANAS" + pos)| ≤ limitOf "BANANAS" + pos := by
        rw [abs_of_nonneg hsq]; omega
      have hbq2 : |min (-rav) (limitOf "BANANAS" - pos)| ≤ limitOf "BANANAS" - pos := by
        rw [abs_of_nonneg hbq]; omega
      rcases process_core_orders_bananas st od ba rav bb rbv pos with h | h | h | h <;> rw [h]
      · exact Or.inl rfl
      · right; right; left
        refine ⟨_, rfl, neg_nonpos.mpr (abs_nonneg _), ?_⟩
        show -(limitOf "BANANAS" + pos) ≤ -|min rbv (limitOf "BANANAS" + pos)|
        omega
      · right; left
        refine ⟨_, rfl, abs_nonneg _, ?_⟩
        show |min (-rav) (limitOf "BANANAS" - pos)| ≤ limitOf "BANANAS" - pos
        omega
      · right; right; right; right
        refine ⟨_, _, rfl, neg_nonpos.mpr (abs_nonneg _), ?_, abs_nonneg _, ?_⟩
        · show -(limitOf "BANANAS" + pos) ≤ -|min rbv (limitOf "BANANAS" + pos)|
          omega
        · show |min (-rav) (limitOf "BANANAS" - pos)| ≤ limitOf "BANANAS" - pos
          omega
    · rw [process_core_orders_other st pr od ba rav bb rbv pos h1 h2]
      exact Or.inl rfl

theorem runProducts_headroom (depths : List (String × OrderDepth)) :
    ∀ (st stF : TraderState) (posf : String → Int) (res : List (String × List Order)),
    (∀ x ∈ depths, BookConvention x.2) →
    (∀ x ∈ depths, |posf x.1| ≤ limitOf x.1) →
    runProducts st depths posf = some (stF, res) →
    ∀ pr orders, (pr, orders) ∈ res → OrdersBound pr (posf pr) orders := by
  induction depths with
  | nil =>
    intro st stF posf res _ _ hrun pr orders hmem
    rw [runProducts] at hrun
    have hres : ([] : List (String × List Order)) = res :=
      congrArg Prod.snd (Option.some.inj hrun)
    rw [← hres] at hmem
    simp at hmem
  | cons hd tl ih =>
    intro st stF posf res hconv hpos hrun pr orders hmem
    obtain ⟨pr0, od0⟩ := hd
    rw [runProducts] at hrun
    cases hp : process_product st pr0 od0 (posf pr0) with
    | none => rw [hp] at hrun; simp at hrun
    | some p =>
      obtain ⟨st2, orders0⟩ := p
      rw [hp] at hrun
      dsimp only at hrun
      cases hr2 : runProducts st2 tl posf with
      | none => rw [hr2] at hrun; simp at hrun
      | some q =>
        obtain ⟨stF', res'⟩ := q
        rw [hr2] at hrun
        have hres : res = (pr0, orders0) :: res' :=
          (congrArg Prod.snd (Option.some.inj hrun)).symm
        subst hres
        rcases List.mem_cons.mp hmem with heq | hmem'
        · obtain ⟨rfl, rfl⟩ : pr = pr0 ∧ orders = orders0 :=
            ⟨congrArg Prod.fst heq, congrArg Prod.snd heq⟩
          obtain ⟨ba, rav, bb, rbv, hga, hgb, hcore⟩ :=
            process_product_eq_some _ _ _ _ _ _ hp
          have horders : orders = (process_core st pr od0 ba rav bb rbv (posf pr)).2 :=
            (congrArg Prod.snd hcore).symm
          rw [horders]
          apply process_core_headroom
          · rcases get_best_ask_raw _ _ _ hga with h0 | hm
            · omega
            · exact (hconv (pr, od0) (List.mem_cons_self _ _)).2 (ba, rav) hm
          · rcases get_best_bid_raw _ _ _ hgb with h0 | hm
            · omega
            · exact (hconv (pr, od0) (List.mem_cons_self _ _)).1 (bb, rbv) hm
          · exact hpos (pr, od0) (List.mem_cons_self _ _)
        · exact ih st2 stF' posf res' (fun x hx => hconv x (List.mem_cons_of_mem _ hx))
            (fun x hx => hpos x (List.mem_cons_of_mem _ hx)) hr2 pr orders hmem'

theorem runProducts_mem (depths : List (String × OrderDepth)) :
    ∀ (st stF : TraderState) (posf : String → Int) (res : List (String × List Order)),
    runProducts st depths posf = some (stF, res) →
    ∀ x ∈ depths, ∃ orders, (x.1, orders) ∈ res := by
  induction depths with
  | nil => intro st stF posf res _ x hx; simp at hx
  | cons hd tl ih =>
    intro st stF posf res hrun x hx
    obtain ⟨pr0, od0⟩ := hd
    rw [runProducts] at hrun
    cases hp : process_product st pr0 od0 (posf pr0) with
    | none => rw [hp] at hrun; simp at hrun
    | some p =>
      obtain ⟨st2, orders0⟩ := p
      rw [hp] at hrun
      dsimp only at hrun
      cases hr2 : runProducts st2 tl posf with
      | none => rw [hr2] at hrun; simp at hrun
      | some q =>
        obtain ⟨stF', res'⟩ := q
        rw [hr2] at hrun
        have hres : res = (pr0, orders0) :: res' :=
          (congrArg Prod.snd (Option.some.inj hrun)).symm
        subst hres
        rcases List.mem_cons.mp hx with rfl | hx'
        · exact ⟨orders0, List.mem_cons_self _ _⟩
        · obtain ⟨orders, horders⟩ := ih st2 stF' posf res' hr2 x hx'
          exact ⟨orders, List.mem_cons_of_mem _ horders⟩

/-! ### Claims about `Trader.run` (C1, C4) -/

/-- C1: on any tick whose books respect the sign conventions and whose
positions satisfy `|position| ≤ positionLimit` for every listed product, every
product entry of the result of `Trader.run` satisfies the headroom invariant:
each buy order's quantity is at most `positionLimit − position`, each sell
order's magnitude is at most `positionLimit + position`, and executing any
subset of the emitted orders keeps the post-trade position inside
`[-positionLimit, +positionLimit]`. -/
theorem C1_headroom (st : TraderState) (ts : TradingState) (stF : TraderState)
    (res : List (String × List Order))
    (hconv : ∀ x ∈ ts.order_depths, BookConvention x.2)
    (hpos : ∀ x ∈ ts.order_depths, |posOf ts x.1| ≤ limitOf x.1)
    (hrun : run st ts = some (stF, res)) :
    ∀ pr orders, (pr, orders) ∈ res → OrdersBound pr (posOf ts pr) orders := by
  intro pr orders hmem
  exact runProducts_headroom ts.order_depths st stF _ res hconv hpos hrun pr orders hmem

/-- C1 witness: a concrete crossed PEARLS tick at position `3`, limit `20`:
the emitted buy has quantity `17 = 20 − 3` and the sell `−23 = −(20 + 3)`. -/
theorem C1_headroom_witness :
    OrdersBound "PEARLS"
      (posOf ⟨[("PEARLS", ⟨[(9, 4)], [(10, -4)]⟩)], [("PEARLS", 3)]⟩ "PEARLS")
      [⟨"PEARLS", 5, 17⟩, ⟨"PEARLS", 9, -23⟩] :=
  C1_headroom ⟨[("PEARLS", 5)], [("PEARLS", 9)], [], [], [], [], [], []⟩
    ⟨[("PEARLS", ⟨[(9, 4)], [(10, -4)]⟩)], [("PEARLS", 3)]⟩
    ⟨[("PEARLS", 5)], [("PEARLS", 9)], [], [], [], [], [], []⟩
    [("PEARLS", [⟨"PEARLS", 5, 17⟩, ⟨"PEARLS", 9, -23⟩])]
    (by decide) (by decide) (by decide) "PEARLS"
    [⟨"PEARLS", 5, 17⟩, ⟨"PEARLS", 9, -23⟩] (by decide)

/-- C4: on a snapshot whose PEARLS sell side is empty, `Trader.run` does not
complete: `get_best_ask` returns the absent value, and line 40 of the source
(`min(-best_ask_volume, buy_volume)`) negates `None`, raising a `TypeError`
instead of skipping that side's order. -/
theorem C4_empty_side_raises :
    run initState ⟨[("PEARLS", ⟨[(10, 5)], []⟩)], []⟩ = none := by
  decide

theorem process_core_mono (st : TraderState) (pr : String) (od : OrderDepth)
    (ba rav bb rbv pos : Int) (k : String) :
    (∀ a, dget st.ask_price k = some a →
      ∃ a', dget (process_core st pr od ba rav bb rbv pos).1.ask_price k = some a' ∧
        a' ≤ a) ∧
    (∀ b, dget st.bid_price k = some b →
      ∃ b', dget (process_core st pr od ba rav bb rbv pos).1.bid_price k = some b' ∧
        b ≤ b') := by
  obtain ⟨hask, hbid⟩ := process_core_state st pr od ba rav bb rbv pos
  rw [hask, hbid]
  by_cases hk : k = pr
  · subst hk
    constructor
    · intro a ha
      rw [dget_dset_self, ha, Option.getD_some]
      exact ⟨_, rfl, min_le_left _ _⟩
    · intro b hb
      rw [dget_dset_self, hb, Option.getD_some]
      exact ⟨_, rfl, le_max_left _ _⟩
  · constructor
    · intro a ha
      rw [dget_dset_ne _ _ _ _ hk]
      exact ⟨a, ha, le_refl a⟩
    · intro b hb
      rw [dget_dset_ne _ _ _ _ hk]
      exact ⟨b, hb, le_refl b⟩

theorem runProducts_mono (depths : List (String × OrderDepth)) :
    ∀ (st stF : TraderState) (posf : String → Int) (res : List (String × List Order)),
    runProducts st depths posf = some (stF, res) →
    ∀ k : String,
    (∀ a, dget st.ask_price k = some a →
      ∃ a', dget stF.ask_price k = some a' ∧ a' ≤ a) ∧
    (∀ b, dget st.bid_price k = some b →
      ∃ b', dget stF.bid_price k = some b' ∧ b ≤ b') := by
  induction depths with
  | nil =>
    intro st stF posf res hrun k
    rw [runProducts] at hrun
    have hst : st = stF := congrArg Prod.fst (Option.some.inj hrun)
    subst hst
    exact ⟨fun a ha => ⟨a, ha, le_refl a⟩, fun b hb => ⟨b, hb, le_refl b⟩⟩
  | cons hd tl ih =>
    intro st stF posf res hrun k
    obtain ⟨pr0, od0⟩ := hd
    rw [runProducts] at hrun
    cases hp : process_product st pr0 od0 (posf pr0) with
    | none => rw [hp] at hrun; simp at hrun
    | some p =>
      obtain ⟨st2, orders0⟩ := p
      rw [hp] at hrun
      dsimp only at hrun
      cases hr2 : runProducts st2 tl posf with
      | none => rw [hr2] at hrun; simp at hrun
      | some q =>
        obtain ⟨stF', res'⟩ := q
        rw [hr2] at hrun
        have hstF : stF' = stF := congrArg Prod.fst (Option.some.inj hrun)
        subst hstF
        obtain ⟨ba, rav, bb, rbv, _, _, hcore⟩ := process_product_eq_some _ _ _ _ _ _ hp
        have hst2 : (process_core st pr0 od0 ba rav bb rbv (posf pr0)).1 = st2 :=
          congrArg Prod.fst hcore
        constructor
        · intro a ha
          obtain ⟨a1, ha1, hle1⟩ :=
            (process_core_mono st pr0 od0 ba rav bb rbv (posf pr0) k).1 a ha
          rw [hst2] at ha1
          obtain ⟨a2, ha2, hle2⟩ := (ih st2 stF' posf res' hr2 k).1 a1 ha1
          exact ⟨a2, ha2, le_trans hle2 hle1⟩
        · intro b hb
          obtain ⟨b1, hb1, hle1⟩ :=
            (process_core_mono st pr0 od0 ba rav bb rbv (posf pr0) k).2 b hb
          rw [hst2] at hb1
          obtain ⟨b2, hb2, hle2⟩ := (ih st2 stF' posf res' hr2 k).2 b1 hb1
          exact ⟨b2, hb2, le_trans hle1 hle2⟩

theorem runProducts_unchanged (depths : List (String × OrderDepth)) :
    ∀ (st stF : TraderState) (posf : String → Int) (res : List (String × List Order)),
    runProducts st depths posf = some (stF, res) →
    ∀ k : String, k ∉ depths.map Prod.fst →
    dget stF.ask_price k = dget st.ask_price k ∧
    dget stF.bid_price k = dget st.bid_price k := by
  induction depths with
  | nil =>
    intro st stF posf res hrun k _
    rw [runProducts] at hrun
    have hst : st = stF := congrArg Prod.fst (Option.some.inj hrun)
    subst hst
    exact ⟨rfl, rfl⟩
  | cons hd tl ih =>
    intro st stF posf res hrun k hk
    obtain ⟨pr0, od0⟩ := hd
    rw [runProducts] at hrun
    cases hp : process_product st pr0 od0 (posf pr0) with
    | none => rw [hp] at hrun; simp at hrun
    | some p =>
      obtain ⟨st2, orders0⟩ := p
      rw [hp] at hrun
      dsimp only at hrun
      cases hr2 : runProducts st2 tl posf with
      | none => rw [hr2] at hrun; simp at hrun
      | some q =>
        obtain ⟨stF', res'⟩ := q
        rw [hr2] at hrun
        have hstF : stF' = stF := congrArg Prod.fst (Option.some.inj hrun)
        subst hstF
        simp only [List.map_cons, List.mem_cons, not_or] at hk
        obtain ⟨hk0, hktl⟩ := hk
        obtain ⟨ba, rav, bb, rbv, _, _, hcore⟩ := process_product_eq_some _ _ _ _ _ _ hp
        have hst2 : (process_core st pr0 od0 ba rav bb rbv (posf pr0)).1 = st2 :=
          congrArg Prod.fst hcore
        obtain ⟨hask, hbid⟩ := process_core_state st pr0 od0 ba rav bb rbv (posf pr0)
        rw [hst2] at hask hbid
        obtain ⟨ih1, ih2⟩ := ih st2 stF' posf res' hr2 k hktl
        refine ⟨?_, ?_⟩
        · rw [ih1, hask, dget_dset_ne _ _ _ _ hk0]
        · rw [ih2, hbid, dget_dset_ne _ _ _ _ hk0]

theorem runProducts_floor_formula (depths : List (String × OrderDepth)) :
    ∀ (st stF : TraderState) (posf : String → Int) (res : List (String × List Order)),
    runProducts st depths posf = some (stF, res) →
    (depths.map Prod.fst).Nodup →
    ∀ pr od, (pr, od) ∈ depths →
    ∀ ba rav bb rbv, get_best_ask od.sell_orders = some (ba, rav) →
    get_best_bid od.buy_orders = some (bb, rbv) →
    dget stF.ask_price pr = some (min ((dget st.ask_price pr).getD ba) ba) ∧
    dget stF.bid_price pr = some (max ((dget st.bid_price pr).getD bb) bb) := by
  induction depths with
  | nil => intro st stF posf res _ _ pr od hmem; simp at hmem
  | cons hd tl ih =>
    intro st stF posf res hrun hnd pr od hmem ba rav bb rbv hga hgb
    obtain ⟨pr0, od0⟩ := hd
    rw [runProducts] at hrun
    cases hp : process_product st pr0 od0 (posf pr0) with
    | none => rw [hp] at hrun; simp at hrun
    | some p =>
      obtain ⟨st2, orders0⟩ := p
      rw [hp] at hrun
      dsimp only at hrun
      cases hr2 : runProducts st2 tl posf with
      | none => rw [hr2] at hrun; simp at hrun
      | some q =>
        obtain ⟨stF', res'⟩ := q
        rw [hr2] at hrun
        have hstF : stF' = stF := congrArg Prod.fst (Option.some.inj hrun)
        subst hstF
        simp only [List.map_cons, List.nodup_cons] at hnd
        obtain ⟨hnd0, hndtl⟩ := hnd
        rcases List.mem_cons.mp hmem with heq | hmem'
        · obtain ⟨rfl, rfl⟩ : pr = pr0 ∧ od = od0 :=
            ⟨congrArg Prod.fst heq, congrArg Prod.snd heq⟩
          obtain ⟨ba', rav', bb', rbv', hga', hgb', hcore⟩ :=
            process_product_eq_some _ _ _ _ _ _ hp
          have hba : ba' = ba ∧ rav' = rav := by
            have := Option.some.inj (hga'.symm.trans hga)
            exact ⟨congrArg Prod.fst this, congrArg Prod.snd this⟩
          have hbb : bb' = bb ∧ rbv' = rbv := by
            have := Option.some.inj (hgb'.symm.trans hgb)
            exact ⟨congrArg Prod.fst this, congrArg Prod.snd this⟩
          obtain ⟨rfl, rfl⟩ := hba
          obtain ⟨rfl, rfl⟩ := hbb
          have hst2 : (process_core st pr od ba' rav' bb' rbv' (posf pr)).1 = st2 :=
            congrArg Prod.fst hcore
          obtain ⟨hask, hbid⟩ := process_core_state st pr od ba' rav' bb' rbv' (posf pr)
          rw [hst2] at hask hbid
          have hpr_not_tl : pr ∉ tl.map Prod.fst := hnd0
          obtain ⟨hu1, hu2⟩ := runProducts_unchanged tl st2 stF' posf res' hr2 pr hpr_not_tl
          refine ⟨?_, ?_⟩
          · rw [hu1, hask, dget_dset_self]
          · rw [hu2, hbid, dget_dset_self]
        · have hprne : pr ≠ pr0 := by
            intro hcontra
            subst hcontra
            exact hnd0 (List.mem_map_of_mem Prod.fst hmem')
          obtain ⟨ba', rav', bb', rbv', _, _, hcore⟩ :=
            process_product_eq_some _ _ _ _ _ _ hp
          have hst2 : (process_core st pr0 od0 ba' rav' bb' rbv' (posf pr0)).1 = st2 :=
            congrArg Prod.fst hcore
          obtain ⟨hask, hbid⟩ := process_core_state st pr0 od0 ba' rav' bb' rbv' (posf pr0)
          rw [hst2] at hask hbid
          have hih := ih st2 stF' posf res' hr2 hndtl pr od hmem' ba rav bb rbv hga hgb
          have he1 : dget st2.ask_price pr = dget st.ask_price pr := by
            rw [hask, dget_dset_ne _ _ _ _ hprne]
          have he2 : dget st2.bid_price pr = dget st.bid_price pr := by
            rw [hbid, dget_dset_ne _ _ _ _ hprne]
          rw [he1, he2] at hih
          exact hih

theorem runSeq_mono (tss : List TradingState) :
    ∀ (st stF : TraderState) (ress : List (List (String × List Order))),
    runSeq st tss = some (stF, ress) →
    ∀ k : String,
    (∀ a, dget st.ask_price k = some a →
      ∃ a', dget stF.ask_price k = some a' ∧ a' ≤ a) ∧
    (∀ b, dget st.bid_price k = some b →
      ∃ b', dget stF.bid_price k = some b' ∧ b ≤ b') := by
  induction tss with
  | nil =>
    intro st stF ress hrun k
    rw [runSeq] at hrun
    have hst : st = stF := congrArg Prod.fst (Option.some.inj hrun)
    subst hst
    exact ⟨fun a ha => ⟨a, ha, le_refl a⟩, fun b hb => ⟨b, hb, le_refl b⟩⟩
  | cons ts tl ih =>
    intro st stF ress hrun k
    rw [runSeq] at hrun
    cases hr : run st ts with
    | none => rw [hr] at hrun; simp at hrun
    | some p =>
      obtain ⟨st2, res⟩ := p
      rw [hr] at hrun
      dsimp only at hrun
      cases hr2 : runSeq st2 tl with
      | none => rw [hr2] at hrun; simp at hrun
      | some q =>
        obtain ⟨stF', ress'⟩ := q
        rw [hr2] at hrun
        have hstF : stF' = stF := congrArg Prod.fst (Option.some.inj hrun)
        subst hstF
        have h1 := runProducts_mono ts.order_depths st st2 _ res hr k
        have h2 := ih st2 stF' ress' hr2 k
        constructor
        · intro a ha
          obtain ⟨a1, ha1, hle1⟩ := h1.1 a ha
          obtain ⟨a2, ha2, hle2⟩ := h2.1 a1 ha1
          exact ⟨a2, ha2, le_trans hle2 hle1⟩
        · intro b hb
          obtain ⟨b1, hb1, hle1⟩ := h1.2 b hb
          obtain ⟨b2, hb2, hle2⟩ := h2.2 b1 hb1
          exact ⟨b2, hb2, le_trans hle1 hle2⟩

/-! ### Claim C8: fair-value floor/ceiling monotonicity -/

/-- C8: per tick, `Trader.run` updates the running ask floor by
`min(previous floor, current best ask)` and the bid ceiling by
`max(previous ceiling, current best bid)` for every product of the snapshot
(the previous value defaulting to the current best quote on first sight),
and across any sequence of ticks the stored floor never increases, the
stored ceiling never decreases, and neither entry is ever reset. -/
theorem C8_monotone_floors (st : TraderState) :
    (∀ ts stF res pr od ba rav bb rbv,
      run st ts = some (stF, res) →
      (ts.order_depths.map Prod.fst).Nodup →
      (pr, od) ∈ ts.order_depths →
      get_best_ask od.sell_orders = some (ba, rav) →
      get_best_bid od.buy_orders = some (bb, rbv) →
      dget stF.ask_price pr = some (min ((dget st.ask_price pr).getD ba) ba) ∧
      dget stF.bid_price pr = some (max ((dget st.bid_price pr).getD bb) bb)) ∧
    (∀ tss stF ress, runSeq st tss = some (stF, ress) →
      ∀ pr : String,
      (∀ a, dget st.ask_price pr = some a →
        ∃ a', dget stF.ask_price pr = some a' ∧ a' ≤ a) ∧
      (∀ b, dget st.bid_price pr = some b →
        ∃ b', dget stF.bid_price pr = some b' ∧ b ≤ b')) := by
  constructor
  · intro ts stF res pr od ba rav bb rbv hrun hnd hmem hga hgb
    exact runProducts_floor_formula ts.order_depths st stF _ res hrun hnd pr od hmem
      ba rav bb rbv hga hgb
  · intro tss stF ress hrun pr
    exact runSeq_mono tss st stF ress hrun pr

/-- C8 witness: one concrete PEARLS tick from a state with floor `10` and
ceiling `5`: a best ask of `8` lowers the floor to `8 = min(10, 8)` and a
best bid of `9` raises the ceiling to `9 = max(5, 9)`; the one-tick sequence
keeps the floor at most `10` and the ceiling at least `5`. -/
theorem C8_monotone_floors_witness :
    (dget (⟨[("PEARLS", 8)], [("PEARLS", 9)], [("PEARLS", [])], [("PEARLS", [])],
        [], [], [], []⟩ : TraderState).ask_price "PEARLS" =
      some (min ((dget ([("PEARLS", 10)] : List (String × Int)) "PEARLS").getD 8) 8) ∧
     dget (⟨[("PEARLS", 8)], [("PEARLS", 9)], [("PEARLS", [])], [("PEARLS", [])],
        [], [], [], []⟩ : TraderState).bid_price "PEARLS" =
      some (max ((dget ([("PEARLS", 5)] : List (String × Int)) "PEARLS").getD 9) 9)) ∧
    (∀ a, dget ([("PEARLS", 10)] : List (String × Int)) "PEARLS" = some a →
      ∃ a', dget (⟨[("PEARLS", 8)], [("PEARLS", 9)], [("PEARLS", [])], [("PEARLS", [])],
        [], [], [], []⟩ : TraderState).ask_price "PEARLS" = some a' ∧ a' ≤ a) := by
  constructor
  · exact (C8_monotone_floors ⟨[("PEARLS", 10)], [("PEARLS", 5)], [("PEARLS", [])],
      [("PEARLS", [])], [], [], [], []⟩).1
      ⟨[("PEARLS", ⟨[(9, 4)], [(8, -4)]⟩)], []⟩
      ⟨[("PEARLS", 8)], [("PEARLS", 9)], [("PEARLS", [])], [("PEARLS", [])],
        [], [], [], []⟩
      [("PEARLS", [⟨"PEARLS", 8, 20⟩, ⟨"PEARLS", 9, -20⟩])]
      "PEARLS" ⟨[(9, 4)], [(8, -4)]⟩ 8 (-4) 9 4
      (by decide) (by decide) (by decide) (by decide) (by decide)
  · exact ((C8_monotone_floors ⟨[("PEARLS", 10)], [("PEARLS", 5)], [("PEARLS", [])],
      [("PEARLS", [])], [], [], [], []⟩).2
      [⟨[("PEARLS", ⟨[(9, 4)], [(8, -4)]⟩)], []⟩]
      ⟨[("PEARLS", 8)], [("PEARLS", 9)], [("PEARLS", [])], [("PEARLS", [])],
        [], [], [], []⟩
      [[("PEARLS", [⟨"PEARLS", 8, 20⟩, ⟨"PEARLS", 9, -20⟩])]]
      (by decide) "PEARLS").1

/-! ### Claim C10: the crossed PEARLS condition is absorbing -/

theorem pearls_crossed_iff (st : TraderState) :
    pearls_crossed st = true ↔ ∃ a b, dget st.ask_price "PEARLS" = some a ∧
      dget st.bid_price "PEARLS" = some b ∧ a < b := by
  rw [pearls_crossed]
  cases hA : dget st.ask_price "PEARLS" with
  | none => simp
  | some a =>
    cases hB : dget st.bid_price "PEARLS" with
    | none => simp
    | some b => simp

theorem process_core_crossed_mono (st : TraderState) (pr : String) (od : OrderDepth)
    (ba rav bb rbv pos : Int) (h : pearls_crossed st = true) :
    pearls_crossed (process_core st pr od ba rav bb rbv pos).1 = true := by
  obtain ⟨a, b, hA, hB, hab⟩ := (pearls_crossed_iff st).mp h
  obtain ⟨hask, hbid⟩ := process_core_state st pr od ba rav bb rbv pos
  apply (pearls_crossed_iff _).mpr
  rw [hask, hbid]
  by_cases hk : ("PEARLS" : String) = pr
  · subst hk
    refine ⟨min a ba, max b bb, ?_, ?_, by omega⟩
    · rw [dget_dset_self, hA, Option.getD_some]
    · rw [dget_dset_self, hB, Option.getD_some]
  · refine ⟨a, b, ?_, ?_, hab⟩
    · rw [dget_dset_ne _ _ _ _ hk]; exact hA
    · rw [dget_dset_ne _ _ _ _ hk]; exact hB

theorem process_core_orders_pearls_crossed (st : TraderState) (od : OrderDepth)
    (ba rav bb rbv pos : Int) (h : pearls_crossed st = true) :
    ∃ f c,
      dget (process_core st "PEARLS" od ba rav bb rbv pos).1.ask_price "PEARLS" =
        some f ∧
      dget (process_core st "PEARLS" od ba rav bb rbv pos).1.bid_price "PEARLS" =
        some c ∧
      f < c ∧
      (process_core st "PEARLS" od ba rav bb rbv pos).2 =
        [⟨"PEARLS", f, |limitOf "PEARLS" - pos|⟩,
         ⟨"PEARLS", c, -|limitOf "PEARLS" + pos|⟩] := by
  obtain ⟨a, b, hA, hB, hab⟩ := (pearls_crossed_iff st).mp h
  obtain ⟨hask, hbid⟩ := process_core_state st "PEARLS" od ba rav bb rbv pos
  refine ⟨min a ba, max b bb, ?_, ?_, by omega, ?_⟩
  · rw [hask, dget_dset_self, hA, Option.getD_some]
  · rw [hbid, dget_dset_self, hB, Option.getD_some]
  · rw [process_core_orders_pearls, hA, hB]
    simp only [Option.getD_some]
    rw [if_pos (show min a ba < max b bb by omega)]

theorem runProducts_pearls (depths : List (String × OrderDepth)) :
    ∀ (st stF : TraderState) (posf : String → Int) (res : List (String × List Order)),
    pearls_crossed st = true →
    runProducts st depths posf = some (stF, res) →
    pearls_crossed stF = true ∧
    ∀ orders, ("PEARLS", orders) ∈ res →
      ∃ f c, f < c ∧
        orders = [⟨"PEARLS", f, |limitOf "PEARLS" - posf "PEARLS"|⟩,
                  ⟨"PEARLS", c, -|limitOf "PEARLS" + posf "PEARLS"|⟩] := by
  induction depths with
  | nil =>
    intro st stF posf res hcr hrun
    rw [runProducts] at hrun
    have hst : st = stF := congrArg Prod.fst (Option.some.inj hrun)
    have hres : ([] : List (String × List Order)) = res :=
      congrArg Prod.snd (Option.some.inj hrun)
    subst hst
    refine ⟨hcr, ?_⟩
    intro orders hmem
    rw [← hres] at hmem
    simp at hmem
  | cons hd tl ih =>
    intro st stF posf res hcr hrun
    obtain ⟨pr0, od0⟩ := hd
    rw [runProducts] at hrun
    cases hp : process_product st pr0 od0 (posf pr0) with
    | none => rw [hp] at hrun; simp at hrun
    | some p =>
      obtain ⟨st2, orders0⟩ := p
      rw [hp] at hrun
      dsimp only at hrun
      cases hr2 : runProducts st2 tl posf with
      | none => rw [hr2] at hrun; simp at hrun
      | some q =>
        obtain ⟨stF', res'⟩ := q
        rw [hr2] at hrun
        have hstF : stF' = stF := congrArg Prod.fst (Option.some.inj hrun)
        subst hstF
        have hres : res = (pr0, orders0) :: res' :=
          (congrArg Prod.snd (Option.some.inj hrun)).symm
        subst hres
        obtain ⟨ba, rav, bb, rbv, hga, hgb, hcore⟩ :=
          process_product_eq_some _ _ _ _ _ _ hp
        have hst2 : (process_core st pr0 od0 ba rav bb rbv (posf pr0)).1 = st2 :=
          congrArg Prod.fst hcore
        have hst2c : pearls_crossed st2 = true := by
          rw [← hst2]
          exact process_core_crossed_mono st pr0 od0 ba rav bb rbv (posf pr0) hcr
        obtain ⟨hcrF, hres'⟩ := ih st2 stF' posf res' hst2c hr2
        refine ⟨hcrF, ?_⟩
        intro orders hmem
        rcases List.mem_cons.mp hmem with heq | hmem'
        · have hpr0 : "PEARLS" = pr0 := congrArg Prod.fst heq
          have horders : orders = orders0 := congrArg Prod.snd heq
          subst hpr0
          obtain ⟨f, c, _, _, hfc, hshape⟩ :=
            process_core_orders_pearls_crossed st od0 ba rav bb rbv (posf "PEARLS") hcr
          have hord0 : (process_core st "PEARLS" od0 ba rav bb rbv (posf "PEARLS")).2 =
              orders0 := congrArg Prod.snd hcore
          refine ⟨f, c, hfc, ?_⟩
          rw [horders, ← hord0, hshape]
        · exact hres' orders hmem'

theorem runProducts_pearls_floor (depths : List (String × OrderDepth)) :
    ∀ (st stF : TraderState) (posf : String → Int) (res : List (String × List Order)),
    pearls_crossed st = true →
    runProducts st depths posf = some (stF, res) →
    (depths.map Prod.fst).Nodup →
    ∀ orders, ("PEARLS", orders) ∈ res →
      ∃ f c, dget stF.ask_price "PEARLS" = some f ∧
        dget stF.bid_price "PEARLS" = some c ∧ f < c ∧
        orders = [⟨"PEARLS", f, |limitOf "PEARLS" - posf "PEARLS"|⟩,
                  ⟨"PEARLS", c, -|limitOf "PEARLS" + posf "PEARLS"|⟩] := by
  induction depths with
  | nil =>
    intro st stF posf res hcr hrun hnd orders hmem
    rw [runProducts] at hrun
    have hres : ([] : List (String × List Order)) = res :=
      congrArg Prod.snd (Option.some.inj hrun)
    rw [← hres] at hmem
    simp at hmem
  | cons hd tl ih =>
    intro st stF posf res hcr hrun hnd orders hmem
    obtain ⟨pr0, od0⟩ := hd
    rw [runProducts] at hrun
    cases hp : process_product st pr0 od0 (posf pr0) with
    | none => rw [hp] at hrun; simp at hrun
    | some p =>
      obtain ⟨st2, orders0⟩ := p
      rw [hp] at hrun
      dsimp only at hrun
      cases hr2 : runProducts st2 tl posf with
      | none => rw [hr2] at hrun; simp at hrun
      | some q =>
        obtain ⟨stF', res'⟩ := q
        rw [hr2] at hrun
        have hstF : stF' = stF := congrArg Prod.fst (Option.some.inj hrun)
        subst hstF
        have hres : res = (pr0, orders0) :: res' :=
          (congrArg Prod.snd (Option.some.inj hrun)).symm
        subst hres
        simp only [List.map_cons, List.nodup_cons] at hnd
        obtain ⟨hnd0, hndtl⟩ := hnd
        obtain ⟨ba, rav, bb, rbv, hga, hgb, hcore⟩ :=
          process_product_eq_some _ _ _ _ _ _ hp
        have hst2 : (process_core st pr0 od0 ba rav bb rbv (posf pr0)).1 = st2 :=
          congrArg Prod.fst hcore
        have hst2c : pearls_crossed st2 = true := by
          rw [← hst2]
          exact process_core_crossed_mono st pr0 od0 ba rav bb rbv (posf pr0) hcr
        rcases List.mem_cons.mp hmem with heq | hmem'
        · have hpr0 : "PEARLS" = pr0 := congrArg Prod.fst heq
          have horders : orders = orders0 := congrArg Prod.snd heq
          subst hpr0
          obtain ⟨f, c, hf, hc, hfc, hshape⟩ :=
            process_core_orders_pearls_crossed st od0 ba rav bb rbv (posf "PEARLS") hcr
          have hord0 : (process_core st "PEARLS" od0 ba rav bb rbv (posf "PEARLS")).2 =
              orders0 := congrArg Prod.snd hcore
          obtain ⟨hu1, hu2⟩ :=
            runProducts_unchanged tl st2 stF' posf res' hr2 "PEARLS" hnd0
          refine ⟨f, c, ?_, ?_, hfc, ?_⟩
          · rw [hu1, ← hst2]; exact hf
          · rw [hu2, ← hst2]; exact hc
          · rw [horders, ← hord0, hshape]
        · exact ih st2 stF' posf res' hst2c hr2 hndtl orders hmem'

theorem runSeqStates_pearls (tss : List TradingState) :
    ∀ (st : TraderState) (items : List (TraderState × List (String × List Order))),
    pearls_crossed st = true →
    runSeqStates st tss = some items →
    (∀ x ∈ items, pearls_crossed x.1 = true) ∧
    List.Forall₂
      (fun (ts : TradingState) (x : TraderState × List (String × List Order)) =>
        (∀ od, ("PEARLS", od) ∈ ts.order_depths →
          ∃ orders, ("PEARLS", orders) ∈ x.2) ∧
        ((ts.order_depths.map Prod.fst).Nodup →
          ∀ orders, ("PEARLS", orders) ∈ x.2 →
            ∃ f c, dget x.1.ask_price "PEARLS" = some f ∧
              dget x.1.bid_price "PEARLS" = some c ∧ f < c ∧
              orders = [⟨"PEARLS", f, |limitOf "PEARLS" - posOf ts "PEARLS"|⟩,
                        ⟨"PEARLS", c, -|limitOf "PEARLS" + posOf ts "PEARLS"|⟩]))
      tss items := by
  induction tss with
  | nil =>
    intro st items hcr hrun
    rw [runSeqStates] at hrun
    have hitems : ([] : List (TraderState × List (String × List Order))) = items :=
      Option.some.inj hrun
    rw [← hitems]
    exact ⟨by simp, List.Forall₂.nil⟩
  | cons ts tl ih =>
    intro st items hcr hrun
    rw [runSeqStates] at hrun
    cases hr : run st ts with
    | none => rw [hr] at hrun; simp at hrun
    | some p =>
      obtain ⟨st2, res⟩ := p
      rw [hr] at hrun
      dsimp only at hrun
      cases hr2 : runSeqStates st2 tl with
      | none => rw [hr2] at hrun; simp at hrun
      | some items' =>
        rw [hr2] at hrun
        have hitems : items = (st2, res) :: items' := (Option.some.inj hrun).symm
        subst hitems
        have hst2c : pearls_crossed st2 = true :=
          (runProducts_pearls ts.order_depths st st2 _ res hcr hr).1
        obtain ⟨hallc, hforall⟩ := ih st2 items' hst2c hr2
        refine ⟨?_, List.Forall₂.cons ⟨?_, ?_⟩ hforall⟩
        · intro x hx
          rcases List.mem_cons.mp hx with rfl | hx'
          · exact hst2c
          · exact hallc x hx'
        · intro od hod
          exact runProducts_mem ts.order_depths st st2 _ res hr ("PEARLS", od) hod
        · intro hnd orders hmem
          exact runProducts_pearls_floor ts.order_depths st st2 _ res hcr hr hnd
            orders hmem

/-- C10: once the stored PEARLS ask floor `ask_price["PEARLS"]` is strictly
below the stored bid ceiling `bid_price["PEARLS"]`, the condition is
absorbing: after any further successful tick it still holds (the min/max
updates only tighten both sides), every listed product still receives a
result entry, and — for snapshots with distinct product keys, as Python
dicts guarantee — every PEARLS entry from then on is exactly a buy order
placed at that tick's stored ask floor and a sell order placed at that
tick's stored bid ceiling, so the strategy never returns to the no-action
state; over a tick sequence this holds tick by tick, each tick's prices
being the floor and ceiling stored after that tick. -/
theorem C10_pearls_absorbing (st : TraderState) (hcr : pearls_crossed st = true) :
    (∀ ts stF res, run st ts = some (stF, res) →
      pearls_crossed stF = true ∧
      (∀ pr od, (pr, od) ∈ ts.order_depths → ∃ orders, (pr, orders) ∈ res) ∧
      ((ts.order_depths.map Prod.fst).Nodup →
        ∀ orders, ("PEARLS", orders) ∈ res →
          ∃ f c, dget stF.ask_price "PEARLS" = some f ∧
            dget stF.bid_price "PEARLS" = some c ∧ f < c ∧
            orders = [⟨"PEARLS", f, |limitOf "PEARLS" - posOf ts "PEARLS"|⟩,
                      ⟨"PEARLS", c, -|limitOf "PEARLS" + posOf ts "PEARLS"|⟩])) ∧
    (∀ tss items, runSeqStates st tss = some items →
      (∀ x ∈ items, pearls_crossed x.1 = true) ∧
      List.Forall₂
        (fun (ts : TradingState) (x : TraderState × List (String × List Order)) =>
          (∀ od, ("PEARLS", od) ∈ ts.order_depths →
            ∃ orders, ("PEARLS", orders) ∈ x.2) ∧
          ((ts.order_depths.map Prod.fst).Nodup →
            ∀ orders, ("PEARLS", orders) ∈ x.2 →
              ∃ f c, dget x.1.ask_price "PEARLS" = some f ∧
                dget x.1.bid_price "PEARLS" = some c ∧ f < c ∧
                orders = [⟨"PEARLS", f, |limitOf "PEARLS" - posOf ts "PEARLS"|⟩,
                          ⟨"PEARLS", c, -|limitOf "PEARLS" + posOf ts "PEARLS"|⟩]))
        tss items) := by
  constructor
  · intro ts stF res hrun
    refine ⟨(runProducts_pearls ts.order_depths st stF _ res hcr hrun).1, ?_, ?_⟩
    · intro pr od hod
      exact runProducts_mem ts.order_depths st stF _ res hrun (pr, od) hod
    · intro hnd orders hmem
      exact runProducts_pearls_floor ts.order_depths st stF _ res hcr hrun hnd
        orders hmem
  · intro tss items hrun
    exact runSeqStates_pearls tss st items hcr hrun

/-- C10 witness: starting from a crossed state (floor `8 <` ceiling `9`), one
concrete PEARLS tick keeps the state crossed and emits exactly the buy at the
stored ask floor `8` and the sell at the stored bid ceiling `9`; the one-tick
sequence records the same crossed post-tick state. -/
theorem C10_pearls_absorbing_witness :
    pearls_crossed (⟨[("PEARLS", 8)], [("PEARLS", 9)], [("PEARLS", [])],
      [("PEARLS", [])], [], [], [], []⟩ : TraderState) = true ∧
    (∀ orders, ("PEARLS", orders) ∈
        [("PEARLS", [(⟨"PEARLS", 8, 20⟩ : Order), ⟨"PEARLS", 9, -20⟩])] →
      ∃ f c,
        dget (⟨[("PEARLS", 8)], [("PEARLS", 9)], [("PEARLS", [])],
          [("PEARLS", [])], [], [], [], []⟩ : TraderState).ask_price "PEARLS" =
          some f ∧
        dget (⟨[("PEARLS", 8)], [("PEARLS", 9)], [("PEARLS", [])],
          [("PEARLS", [])], [], [], [], []⟩ : TraderState).bid_price "PEARLS" =
          some c ∧ f < c ∧
        orders = [⟨"PEARLS", f,
            |limitOf "PEARLS" -
              posOf ⟨[("PEARLS", ⟨[(7, 3)], [(10, -2)]⟩)], []⟩ "PEARLS"|⟩,
          ⟨"PEARLS", c,
            -|limitOf "PEARLS" +
              posOf ⟨[("PEARLS", ⟨[(7, 3)], [(10, -2)]⟩)], []⟩ "PEARLS"|⟩]) ∧
    (∀ x ∈ [((⟨[("PEARLS", 8)], [("PEARLS", 9)], [("PEARLS", [])],
        [("PEARLS", [])], [], [], [], []⟩ : TraderState),
        [("PEARLS", [(⟨"PEARLS", 8, 20⟩ : Order), ⟨"PEARLS", 9, -20⟩])])],
      pearls_crossed x.1 = true) := by
  have h := (C10_pearls_absorbing ⟨[("PEARLS", 8)], [("PEARLS", 9)], [("PEARLS", [])],
      [("PEARLS", [])], [], [], [], []⟩ (by decide)).1
    ⟨[("PEARLS", ⟨[(7, 3)], [(10, -2)]⟩)], []⟩
    ⟨[("PEARLS", 8)], [("PEARLS", 9)], [("PEARLS", [])], [("PEARLS", [])],
      [], [], [], []⟩
    [("PEARLS", [⟨"PEARLS", 8, 20⟩, ⟨"PEARLS", 9, -20⟩])]
    (by decide)
  have h2 := ((C10_pearls_absorbing ⟨[("PEARLS", 8)], [("PEARLS", 9)],
      [("PEARLS", [])], [("PEARLS", [])], [], [], [], []⟩ (by decide)).2
    [⟨[("PEARLS", ⟨[(7, 3)], [(10, -2)]⟩)], []⟩]
    [(⟨[("PEARLS", 8)], [("PEARLS", 9)], [("PEARLS", [])], [("PEARLS", [])],
        [], [], [], []⟩,
      [("PEARLS", [⟨"PEARLS", 8, 20⟩, ⟨"PEARLS", 9, -20⟩])])]
    (by decide)).1
  exact ⟨h.1, h.2.2 (by decide), h2⟩

end Stockfish
